import Mathlib

/-
Verification development for the py-pdf-parser core
(components.py, filtering.py, sectioning.py, tables.py, common.py).

The Python code is shallowly embedded: mutable document state (the
ignored-index set, tag sets, the font cache, the sectioning registry)
becomes explicit state passing; Python exceptions become `Except PyErr`;
Python `set`s of indexes become `Finset ℕ`; coordinates (Python floats,
used only through comparisons in the verified claims) become `ℚ`.
Python's `sorted` is a stable sort by key and is embedded as
`List.insertionSort` with the non-strict key order, which is stable.

The spatial filter methods of `ElementList` take a `tolerance` argument
defaulting to `0.0`; every claim verified here exercises only that
default.  Since a bounding box satisfies `y1 ≥ y0` (`height ≥ 0`), the
source's trimming `tolerance = min(height / 2, tolerance)` evaluates to
`0` at the default, so the strips built below are embedded with the
trimming already evaluated at `tolerance = 0`.
-/

/-- Exception kinds raised by the library (exceptions.py) together with the
builtin Python exceptions that the embedded code can raise. -/
inductive PyErr where
  | pageNotFound
  | noElementsOnPage
  | noElementFound
  | multipleElementsFound
  | elementOutOfRange
  | invalidSection
  | sectionNotFound
  | tableExtraction
  | invalidTable
  | invalidTableHeader
  | invalidCoordinates
  | keyError
  | valueError
  | indexError
deriving DecidableEq, Repr

/-- An axis-aligned rectangle, `common.py` `BoundingBox`: coordinates
(x0, y0) of the bottom left corner and (x1, y1) of the top right corner. -/
structure BoundingBox where
  x0 : ℚ
  x1 : ℚ
  y0 : ℚ
  y1 : ℚ
deriving DecidableEq, Repr

/-- The constructor invariant of `BoundingBox.__init__`: it raises
`InvalidCoordinatesError` when `x1 < x0` or `y1 < y0`. -/
def mkBoundingBox (x0 x1 y0 y1 : ℚ) : Except PyErr BoundingBox :=
  if x1 < x0 then .error .invalidCoordinates
  else if y1 < y0 then .error .invalidCoordinates
  else .ok ⟨x0, x1, y0, y1⟩

/-- A bounding box that satisfies the constructor invariant. -/
abbrev BoundingBox.valid (b : BoundingBox) : Prop := b.x0 ≤ b.x1 ∧ b.y0 ≤ b.y1

/-- `PDFElement.entirely_within` (components.py): all four edges of the
element's box lie within the given box. -/
abbrev entirelyWithin (e b : BoundingBox) : Prop :=
  e.x0 ≥ b.x0 ∧ e.x1 ≤ b.x1 ∧ e.y0 ≥ b.y0 ∧ e.y1 ≤ b.y1

/-- `PDFElement.partially_within` (components.py): the four non-strict
comparisons of the source. -/
abbrev partiallyWithin (e b : BoundingBox) : Prop :=
  b.x0 ≤ e.x1 ∧ b.x1 ≥ e.x0 ∧ b.y0 ≤ e.y1 ∧ b.y1 ≥ e.y0

/-- One `PDFElement` (components.py): the reading-order index `_index`
assigned at document construction, the page number, the bounding box, the
mutable tag set (here a list), and the font key `element.font` (in the
source a deterministic cached computation from the fragment's glyph run
through the optional font mapping; here stored directly). -/
structure PDFElement where
  index : ℕ
  pageNumber : ℕ
  box : BoundingBox
  tags : List String
  font : String
deriving DecidableEq, Repr

instance : Inhabited PDFElement := ⟨⟨0, 0, ⟨0, 0, 0, 0⟩, [], ""⟩⟩

/-- One `PDFPage` record of the document (components.py): width, height,
page number and the indexes of the first and last element on the page. -/
structure PDFPageInfo where
  pageNumber : ℕ
  width : ℚ
  height : ℚ
  firstIndex : ℕ
  lastIndex : ℕ
deriving DecidableEq, Repr

/-- The state of a `PDFDocument` (components.py): the ordered element
array `_element_list` (the element stored at position `i` has `_index = i`),
the per-page boundary table, and the document-wide `_ignored_indexes` set. -/
structure DocState where
  elements : List PDFElement
  pages : List PDFPageInfo
  ignored : Finset ℕ
deriving DecidableEq

/-- `document._element_list[i]`; every index set handled by the claims is
within range, so out-of-range access is totalised with the default element. -/
def elemAt (doc : DocState) (i : ℕ) : PDFElement := doc.elements.getD i default

/-- An `ElementList` (filtering.py): the frozen set of element indexes.
The document reference is passed explicitly to each operation. -/
structure ElementList where
  indexes : Finset ℕ
deriving DecidableEq

/-- `ElementList.__init__` with an explicit index set: the stored set is
the given set minus the ignored set current at construction time. -/
def mkElementList (doc : DocState) (idxs : Finset ℕ) : ElementList :=
  ⟨idxs \ doc.ignored⟩

/-- `ElementList.__init__` with `indexes=None`, as used by
`PDFDocument.elements`: defaults to all indexes of the document. -/
def allElements (doc : DocState) : ElementList :=
  mkElementList doc (Finset.range doc.elements.length)

/-- `PDFElement.ignore` (components.py): adds the element's index to the
document-wide ignored set. -/
def ignoreElement (doc : DocState) (e : PDFElement) : DocState :=
  { doc with ignored := insert e.index doc.ignored }

/-- `ElementList.ignore_elements` (filtering.py): unions the list's indexes
into the document-wide ignored set. -/
def ignoreElements (doc : DocState) (L : ElementList) : DocState :=
  { doc with ignored := doc.ignored ∪ L.indexes }

/-- `ElementList.__and__`. -/
def elAnd (doc : DocState) (A B : ElementList) : ElementList :=
  mkElementList doc (A.indexes ∩ B.indexes)

/-- `ElementList.__or__`. -/
def elOr (doc : DocState) (A B : ElementList) : ElementList :=
  mkElementList doc (A.indexes ∪ B.indexes)

/-- `ElementList.__sub__`. -/
def elSub (doc : DocState) (A B : ElementList) : ElementList :=
  mkElementList doc (A.indexes \ B.indexes)

/-- `ElementList.__xor__`. -/
def elXor (doc : DocState) (A B : ElementList) : ElementList :=
  mkElementList doc ((A.indexes \ B.indexes) ∪ (B.indexes \ A.indexes))

/-- `ElementList.__intersect_indexes_with_self`:
`self & ElementList(self.document, new_indexes)`. -/
def intersectWithSelf (doc : DocState) (L : ElementList) (newIdxs : Finset ℕ) :
    ElementList :=
  elAnd doc L (mkElementList doc newIdxs)

/-- Iteration order of an `ElementList` (`ElementIterator` uses
`sorted(element_list.indexes)`): ascending index order.  Index sets are
subsets of the document's index range, over which filtering `List.range`
produces exactly the sorted list of members. -/
def sortedIndexes (doc : DocState) (L : ElementList) : List ℕ :=
  (List.range doc.elements.length).filter (fun i => i ∈ L.indexes)

/-- The elements of the list in iteration order. -/
def sortedElems (doc : DocState) (L : ElementList) : List PDFElement :=
  (sortedIndexes doc L).map (elemAt doc)

/-- `ElementList.__getitem__` with key `0` (`sorted(self.indexes)[0]`):
the element with the smallest index; `IndexError` when empty. -/
def elGetFirst (doc : DocState) (L : ElementList) : Except PyErr PDFElement :=
  if h : L.indexes.Nonempty then .ok (elemAt doc (L.indexes.min' h))
  else .error .indexError

/-- `ElementList.__getitem__` with key `-1` (`sorted(self.indexes)[-1]`):
the element with the largest index; `IndexError` when empty. -/
def elGetLast (doc : DocState) (L : ElementList) : Except PyErr PDFElement :=
  if h : L.indexes.Nonempty then .ok (elemAt doc (L.indexes.max' h))
  else .error .indexError

/-- `ElementList.filter_by_tag`: keeps the elements of the list whose tag
set contains the tag, and constructs a new list from those indexes. -/
def filterByTag (doc : DocState) (L : ElementList) (tag : String) : ElementList :=
  mkElementList doc (L.indexes.filter (fun i => tag ∈ (elemAt doc i).tags))

/-- `ElementList.add_element`. -/
def addElement (doc : DocState) (L : ElementList) (e : PDFElement) : ElementList :=
  mkElementList doc (L.indexes ∪ {e.index})

/-- `ElementList.remove_element`. -/
def removeElement (doc : DocState) (L : ElementList) (e : PDFElement) : ElementList :=
  mkElementList doc (L.indexes \ {e.index})

/-- `ElementList.extract_single_element`: `NoElementFoundError` on an empty
list, `MultipleElementsFoundError` on more than one element. -/
def extractSingleElement (doc : DocState) (L : ElementList) :
    Except PyErr PDFElement :=
  if L.indexes.card = 0 then .error .noElementFound
  else if L.indexes.card > 1 then .error .multipleElementsFound
  else .ok (elemAt doc ((sortedIndexes doc L).headD 0))

/-- `PDFDocument.get_page`: raises `PageNotFoundError` when the page number
is not in the page table. -/
def getPage (doc : DocState) (pageNumber : ℕ) : Except PyErr PDFPageInfo :=
  match doc.pages.find? (fun p => p.pageNumber = pageNumber) with
  | some p => .ok p
  | none => .error .pageNotFound

/-- Index set of `ElementList.between(start, end, inclusive)`:
`set(range(start index + 1, end index))`, plus the two boundary indexes when
inclusive. -/
def betweenIdx (s e : ℕ) (inclusive : Bool) : Finset ℕ :=
  if inclusive then Finset.Ico (s + 1) e ∪ {s, e} else Finset.Ico (s + 1) e

/-- `ElementList.between`. -/
def elBetween (doc : DocState) (L : ElementList) (s e : ℕ) (inclusive : Bool) :
    ElementList :=
  intersectWithSelf doc L (betweenIdx s e inclusive)

/-- `PDFPage.elements`: `document.elements.between(start, end, inclusive=True)`. -/
def pageElements (doc : DocState) (p : PDFPageInfo) : ElementList :=
  elBetween doc (allElements doc) p.firstIndex p.lastIndex true

/-- `ElementList.filter_by_page`. -/
def filterByPage (doc : DocState) (L : ElementList) (pageNumber : ℕ) :
    Except PyErr ElementList := do
  let p ← getPage doc pageNumber
  pure (intersectWithSelf doc L (pageElements doc p).indexes)

/-- `ElementList.filter_partially_within_bounding_box`. -/
def filterPartiallyWithinBoundingBox (doc : DocState) (L : ElementList)
    (box : BoundingBox) (pageNumber : ℕ) : Except PyErr ElementList := do
  let base ← filterByPage doc L pageNumber
  let newIdxs := base.indexes.filter (fun i => partiallyWithin (elemAt doc i).box box)
  pure (intersectWithSelf doc L newIdxs)

/-- `ElementList.before`: `set(range(0, element._index))`, plus the element
itself when inclusive, intersected with the receiver. -/
def elBefore (doc : DocState) (L : ElementList) (e : PDFElement)
    (inclusive : Bool) : ElementList :=
  intersectWithSelf doc L
    (if inclusive then insert e.index (Finset.range e.index) else Finset.range e.index)

/-- `max(s)` of Python over a set of naturals: `ValueError` on an empty set. -/
def pyMax (s : Finset ℕ) : Except PyErr ℕ :=
  if h : s.Nonempty then .ok (s.max' h) else .error .valueError

/-- `ElementList.after`: `set(range(element._index + 1, max(self.indexes) + 1))`,
plus the element itself when inclusive, intersected with the receiver.  The
`max` is taken before `inclusive` is consulted. -/
def elAfter (doc : DocState) (L : ElementList) (e : PDFElement)
    (inclusive : Bool) : Except PyErr ElementList := do
  let m ← pyMax L.indexes
  let idxs := Finset.Ico (e.index + 1) (m + 1)
  pure (intersectWithSelf doc L (if inclusive then insert e.index idxs else idxs))

/-- `ElementList.horizontally_in_line_with` at the default `tolerance=0`:
the strip from the left to the right page edge spanning the element's own
vertical extent, filtered by partial overlap on the element's page; the
element itself is removed unless `inclusive`. -/
def horizontallyInLineWith (doc : DocState) (L : ElementList) (e : PDFElement)
    (inclusive : Bool) : Except PyErr ElementList := do
  let p ← getPage doc e.pageNumber
  let box ← mkBoundingBox 0 p.width e.box.y0 e.box.y1
  let results ← filterPartiallyWithinBoundingBox doc L box e.pageNumber
  pure (if inclusive then results else removeElement doc results e)

/-- `ElementList.vertically_in_line_with` at the default `tolerance=0`:
the strip from the bottom to the top page edge spanning the element's own
horizontal extent; with `all_pages`, every page number from the first to the
last page of the collection contributes its own full-height strip (the
element's page is skipped, having been handled already); the element itself
is removed unless `inclusive`. -/
def verticallyInLineWith (doc : DocState) (L : ElementList) (e : PDFElement)
    (inclusive : Bool) (allPages : Bool) : Except PyErr ElementList := do
  let p ← getPage doc e.pageNumber
  let box ← mkBoundingBox e.box.x0 e.box.x1 0 p.height
  let results ← filterPartiallyWithinBoundingBox doc L box e.pageNumber
  let results ←
    if allPages then do
      let first ← elGetFirst doc L
      let last ← elGetLast doc L
      let nums := List.range' first.pageNumber (last.pageNumber + 1 - first.pageNumber)
      nums.foldlM
        (fun acc n => do
          let pg ← getPage doc n
          if pg.pageNumber = e.pageNumber then pure acc
          else do
            let box2 ← mkBoundingBox e.box.x0 e.box.x1 0 pg.height
            let extra ← filterPartiallyWithinBoundingBox doc L box2 pg.pageNumber
            pure (elOr doc acc extra))
        results
    else pure results
  pure (if inclusive then results else removeElement doc results e)

/-- `tables._validate_table_shape`: every row must have the width of the
first row, else `InvalidTableError`. -/
def validateTableShape {α : Type} (table : List (List α)) : Except PyErr Unit :=
  match table with
  | [] => .ok ()
  | r0 :: rest =>
    if rest.all (fun r => r.length = r0.length) then .ok () else .error .invalidTable

/-- One cell of `extract_simple_table`: `(current_row & current_column)
.extract_single_element()`, with `NoElementFoundError` turned into a gap
(`None`) when gaps are allowed and into `TableExtractionError` otherwise,
and `MultipleElementsFoundError` turned into `TableExtractionError`. -/
def simpleTableCell (doc : DocState) (allowGaps : Bool) (row col : ElementList) :
    Except PyErr (Option PDFElement) :=
  match extractSingleElement doc (elAnd doc row col) with
  | .ok e => .ok (some e)
  | .error .noElementFound =>
      if allowGaps then .ok none else .error .tableExtraction
  | .error .multipleElementsFound => .error .tableExtraction
  | .error err => .error err

/-- Number of populated (non-`None`) cells of an assembled table. -/
def tableSize (table : List (List (Option PDFElement))) : ℕ :=
  (table.map (fun row => (row.filter Option.isSome).length)).sum

/-- `tables.extract_simple_table` on the default path (`as_text=False`,
`remove_duplicate_header_rows=False`, `tolerance=0`): the reference element
defaults to `elements[0]`; its full row and column are scanned, every
reference-row element yields a column and every reference-column element a
row; each (row, column) intersection is extracted as one cell; finally the
populated-cell count must equal the element count. -/
def extractSimpleTable (doc : DocState) (elements : ElementList)
    (allowGaps : Bool) (referenceElement : Option PDFElement) :
    Except PyErr (List (List (Option PDFElement))) := do
  let ref ← match referenceElement with
    | some r => pure r
    | none => elGetFirst doc elements
  let refRow ← horizontallyInLineWith doc elements ref true
  let refCol ← verticallyInLineWith doc elements ref true true
  let refCols ← (sortedElems doc refRow).mapM
    (fun e => verticallyInLineWith doc elements e true true)
  let refRows ← (sortedElems doc refCol).mapM
    (fun e => horizontallyInLineWith doc elements e true)
  let table ← refRows.mapM
    (fun row => refCols.mapM (fun col => simpleTableCell doc allowGaps row col))
  if tableSize table ≠ elements.indexes.card then .error .tableExtraction
  else do
    validateTableShape table
    pure table

/-- Sort key of a row in `extract_table`:
`(row[0].page_number, max(-(elem.bounding_box.y1) for elem in row))`.
Rows produced by the algorithm are nonempty, so the defaults of the
totalised head and maximum are never consulted. -/
def rowKey (doc : DocState) (row : ElementList) : ℕ × ℚ :=
  ((elemAt doc ((sortedIndexes doc row).headD 0)).pageNumber,
   (((sortedElems doc row).map (fun e => -e.box.y1)).max?).getD 0)

/-- Non-strict lexicographic order on row keys, the order Python's stable
`sorted` uses for rows. -/
abbrev rowLe (doc : DocState) (r1 r2 : ElementList) : Prop :=
  (rowKey doc r1).1 < (rowKey doc r2).1 ∨
    ((rowKey doc r1).1 = (rowKey doc r2).1 ∧ (rowKey doc r1).2 ≤ (rowKey doc r2).2)

/-- Sort key of a column in `extract_table`:
`max(elem.bounding_box.x0 for elem in col)`. -/
def colKey (doc : DocState) (col : ElementList) : ℚ :=
  (((sortedElems doc col).map (fun e => e.box.x0)).max?).getD 0

/-- Non-strict order on column keys. -/
abbrev colLe (doc : DocState) (c1 c2 : ElementList) : Prop :=
  colKey doc c1 ≤ colKey doc c2

/-- One cell of `extract_table`: as for the simple algorithm, but a missing
element is always a gap. -/
def tableCell (doc : DocState) (row col : ElementList) :
    Except PyErr (Option PDFElement) :=
  match extractSingleElement doc (elAnd doc row col) with
  | .ok e => .ok (some e)
  | .error .noElementFound => .ok none
  | .error .multipleElementsFound => .error .tableExtraction
  | .error err => .error err

/-- Membership-deduplicating accumulation, embedding `set.add` on a Python
set of `ElementList`s (held as a list; the subsequent `sorted` is evaluated
only where all keys are distinct, so the unspecified set iteration order is
immaterial). -/
def dedupAppend (acc : List ElementList) (x : ElementList) : List ElementList :=
  if x ∈ acc then acc else acc ++ [x]

/-- `tables.extract_table` on the default path (`as_text=False`,
`fix_element_in_multiple_rows/cols=False`,
`remove_duplicate_header_rows=False`, `tolerance=0`): collect the distinct
full rows and columns of every element, reject multiple row or column
membership, sort rows top-to-bottom by (page, topmost edge) and columns
left-to-right by rightmost starting edge, and extract every intersection. -/
def extractTable (doc : DocState) (elements : ElementList) :
    Except PyErr (List (List (Option PDFElement))) := do
  let rows ← (sortedElems doc elements).foldlM
    (fun acc e => do
      let row ← horizontallyInLineWith doc elements e true
      pure (dedupAppend acc row))
    ([] : List ElementList)
  let cols ← (sortedElems doc elements).foldlM
    (fun acc e => do
      let col ← verticallyInLineWith doc elements e true true
      pure (dedupAppend acc col))
    ([] : List ElementList)
  if (rows.map (fun r => r.indexes.card)).sum ≠
      (rows.foldl (fun (s : Finset ℕ) (r : ElementList) => s ∪ r.indexes) ∅).card then
    .error .tableExtraction
  else if (cols.map (fun c => c.indexes.card)).sum ≠
      (cols.foldl (fun (s : Finset ℕ) (c : ElementList) => s ∪ c.indexes) ∅).card then
    .error .tableExtraction
  else do
    let sortedRows := List.insertionSort (rowLe doc) rows
    let sortedCols := List.insertionSort (colLe doc) cols
    let table ← sortedRows.mapM
      (fun row => sortedCols.mapM (fun col => tableCell doc row col))
    validateTableShape table
    pure table

/-- First-match association lookup (Python `dict.__getitem__` semantics on
association lists). -/
def assocFind {α : Type} : List (String × α) → String → Option α
  | [], _ => none
  | (k, v) :: rest, k' => if k = k' then some v else assocFind rest k'

/-- Replace the value at a key, or append the binding (Python
`dict.__setitem__`: updates in place, new keys go to the end in insertion
order). -/
def assocSet {α : Type} : List (String × α) → String → α → List (String × α)
  | [], k, v => [(k, v)]
  | (k', v') :: rest, k, v =>
    if k' = k then (k, v) :: rest else (k', v') :: assocSet rest k v

/-- A `Section` of sectioning.py, with the start and end element held by
their indexes and the owning document identified by a label
(`Section.elements` spans `range(start_index, end_index + 1)`). -/
structure PDFSection where
  docId : ℕ
  name : String
  uniqueName : String
  startIdx : ℕ
  endIdx : ℕ
deriving DecidableEq, Repr

/-- The state held in the `Sectioning` class attributes `name_counts` and
`sections_dict` (sectioning.py).  Both are assigned at class scope, so the
single state is shared by every `Sectioning` instance — each instance only
adds its own `document` reference. -/
structure SectioningState where
  nameCounts : List (String × ℕ)
  sectionsDict : List (String × PDFSection)
deriving DecidableEq, Repr

/-- `Sectioning.create_section` as in the source tree: reads the
`defaultdict(int)` counter for the name, forms the unique name by appending
an underscore and the counter to the name, increments the counter and
registers the section.  The source performs no validation of the index
range. -/
def createSection (st : SectioningState) (docId : ℕ) (name : String)
    (startIdx endIdx : ℕ) : SectioningState × PDFSection :=
  let currentCount := (assocFind st.nameCounts name).getD 0
  let uniqueName := name ++ "_" ++ toString currentCount
  let sec : PDFSection := ⟨docId, name, uniqueName, startIdx, endIdx⟩
  (⟨assocSet st.nameCounts name (currentCount + 1),
    assocSet st.sectionsDict uniqueName sec⟩, sec)

/-- `Section.elements` (sectioning.py): the `ElementList` over
`set(range(start_index, end_index + 1))`. -/
def sectionElements (doc : DocState) (sec : PDFSection) : ElementList :=
  mkElementList doc (Finset.Icc sec.startIdx sec.endIdx)

/-- Modelled from the spec: `Sectioning.get_section` is called by
`ElementList.filter_by_section` but is absent from the source tree (which
holds an earlier `Sectioning`); per the spec's error-handling design a
unique-name miss raises `SectionNotFound`. -/
def getSection (st : SectioningState) (uniqueName : String) :
    Except PyErr PDFSection :=
  match assocFind st.sectionsDict uniqueName with
  | some sec => .ok sec
  | none => .error .sectionNotFound

/-- `ElementList.filter_by_section`: looks the section up through
`get_section`, catching `SectionNotFoundError` and degrading to an empty
result. -/
def filterBySection (doc : DocState) (st : SectioningState) (L : ElementList)
    (sectionStr : String) : Except PyErr ElementList :=
  match getSection st sectionStr with
  | .ok sec =>
      .ok (intersectWithSelf doc L (sectionElements doc sec).indexes)
  | .error .sectionNotFound => .ok (intersectWithSelf doc L ∅)
  | .error err => .error err

/-- `ElementList.filter_by_sections`: accesses
`sectioning.sections_dict[section_str]` directly, so an unknown key raises
the builtin `KeyError`; the surrounding handler catches only
`SectionNotFoundError`, which `dict` access never raises, so the `KeyError`
propagates. -/
def filterBySections (doc : DocState) (st : SectioningState) (L : ElementList)
    (sectionStrs : List String) : Except PyErr ElementList := do
  let idxs ← sectionStrs.foldlM
    (fun acc s =>
      match assocFind st.sectionsDict s with
      | some sec => pure (acc ∪ (sectionElements doc sec).indexes)
      | none => .error .keyError)
    (∅ : Finset ℕ)
  pure (intersectWithSelf doc L idxs)

/-- The font→indexes cache `PDFDocument._element_indexes_by_font`, a
`defaultdict(set)` in insertion order. -/
structure FontCache where
  entries : List (String × Finset ℕ)
deriving DecidableEq

/-- The key set of the cache (`dict.keys()`). -/
def cacheKeys (c : FontCache) : List String := c.entries.map Prod.fst

/-- `self._element_indexes_by_font[font].add(index)` on the defaultdict:
inserts into the existing bucket, or creates the bucket. -/
def cacheAdd (c : FontCache) (font : String) (index : ℕ) : FontCache :=
  ⟨assocSet c.entries font (insert index ((assocFind c.entries font).getD ∅))⟩

/-- `PDFDocument._element_indexes_with_fonts` (components.py): collect the
requested fonts that are not cache keys; when any exist, pass once over the
element list, bucketing only those elements whose font is among the
requested non-cached fonts (`if element.font not in non_cached_fonts:
continue`); finally answer with the union of the cache buckets of the
requested fonts.  Returns the updated cache together with the index set.
The building pass (the for-loop over `self._element_list`) is the named
function `fontPass`. -/
def fontPass (nonCached : List String) (l : List PDFElement) (c : FontCache) :
    FontCache :=
  l.foldl (fun c e => if e.font ∈ nonCached then cacheAdd c e.font e.index else c) c

def elementIndexesWithFonts (doc : DocState) (cache : FontCache)
    (fonts : List String) : FontCache × Finset ℕ :=
  let nonCached := fonts.filter (fun f => f ∉ cacheKeys cache)
  let cache' :=
    if nonCached.isEmpty then cache else fontPass nonCached doc.elements cache
  (cache',
   cache'.entries.foldl (fun s p => if p.1 ∈ fonts then s ∪ p.2 else s) ∅)

/-- `ElementList.filter_by_fonts`: intersects the receiver with the answer
of `_element_indexes_with_fonts` and builds a new list. -/
def filterByFonts (doc : DocState) (cache : FontCache) (L : ElementList)
    (fonts : List String) : FontCache × ElementList :=
  let (cache', s) := elementIndexesWithFonts doc cache fonts
  (cache', mkElementList doc (L.indexes ∩ s))

/-- The bucket of a cache key, defaulting to the empty set when absent. -/
def cacheFindD (c : FontCache) (f : String) : Finset ℕ :=
  (assocFind c.entries f).getD ∅

/-- The index set of the elements of a list carrying a font key. -/
def listFontIndexes (l : List PDFElement) (f : String) : Finset ℕ :=
  ((l.filter (fun e => e.font = f)).map PDFElement.index).toFinset

/-- The exact index set of the elements carrying a font key. -/
def fontIndexes (doc : DocState) (f : String) : Finset ℕ :=
  listFontIndexes doc.elements f

/-- A coherent font cache: keys are not duplicated and every bucket holds
exactly the indexes of the elements with that font. -/
def CacheCoherent (doc : DocState) (c : FontCache) : Prop :=
  (cacheKeys c).Nodup ∧ ∀ f s, (f, s) ∈ c.entries → s = fontIndexes doc f

/-- Input to document construction: one page of the loader's page mapping,
the fragments given by their bounding boxes. -/
structure PageInput where
  width : ℚ
  height : ℚ
  elements : List BoundingBox
deriving DecidableEq, Repr

/-- The default element ordering preset
`ElementOrdering.LEFT_TO_RIGHT_TOP_TO_BOTTOM` (components.py) sorts one
page's fragments by the key `(-elem.y0, elem.x0)`; this is the non-strict
lexicographic order of that key (rows top-to-bottom, then left-to-right). -/
abbrev defaultOrderLe (a b : BoundingBox) : Prop :=
  -a.y0 < -b.y0 ∨ (-a.y0 = -b.y0 ∧ a.x0 ≤ b.x0)

instance : IsTotal BoundingBox defaultOrderLe :=
  ⟨fun a b => by
    rcases lt_trichotomy (-a.y0) (-b.y0) with h | h | h
    · exact Or.inl (Or.inl h)
    · rcases le_total a.x0 b.x0 with h' | h'
      · exact Or.inl (Or.inr ⟨h, h'⟩)
      · exact Or.inr (Or.inr ⟨h.symm, h'⟩)
    · exact Or.inr (Or.inl h)⟩

instance : IsTrans BoundingBox defaultOrderLe :=
  ⟨fun a b c hab hbc => by
    rcases hab with h1 | ⟨h1, h1'⟩
    · rcases hbc with h2 | ⟨h2, h2'⟩
      · exact Or.inl (h1.trans h2)
      · exact Or.inl (h2 ▸ h1)
    · rcases hbc with h2 | ⟨h2, h2'⟩
      · exact Or.inl (h1 ▸ h2)
      · exact Or.inr ⟨h1.trans h2, h1'.trans h2'⟩⟩

/-- The key order of `sorted(pages.items())` (components.py): page-number
order (page numbers are dictionary keys, hence distinct). -/
abbrev pageNumberLe (p q : ℕ × PageInput) : Prop := p.1 ≤ q.1

instance : IsTotal (ℕ × PageInput) pageNumberLe := ⟨fun a b => le_total a.1 b.1⟩

instance : IsTrans (ℕ × PageInput) pageNumberLe :=
  ⟨fun _ _ _ hab hbc => le_trans hab hbc⟩

/-- The per-page element loop of `PDFDocument.__init__`: each ordered
fragment becomes a `PDFElement` carrying the next global index (tags start
empty; the font key is not consulted by the construction claims). -/
def assignIdx (pageNumber : ℕ) : ℕ → List BoundingBox → List PDFElement
  | _, [] => []
  | i, b :: bs => ⟨i, pageNumber, b, [], ""⟩ :: assignIdx pageNumber (i + 1) bs

/-- The page loop of `PDFDocument.__init__` over the pages already sorted by
page number: orders each page's fragments with the default ordering
function, raises `NoElementsOnPageError` on a page with no fragments, and
records the page's first and last global index. -/
def buildPagesSorted :
    ℕ → List (ℕ × PageInput) → Except PyErr (List PDFElement × List PDFPageInfo)
  | _, [] => .ok ([], [])
  | idx, (pn, pg) :: rest =>
    let ordered := List.insertionSort defaultOrderLe pg.elements
    if ordered.isEmpty then .error .noElementsOnPage
    else do
      let (restEls, restPages) ← buildPagesSorted (idx + ordered.length) rest
      .ok (assignIdx pn idx ordered ++ restEls,
           ⟨pn, pg.width, pg.height, idx, idx + ordered.length - 1⟩ :: restPages)

/-- `PDFDocument.__init__` with the default element ordering: iterates
`sorted(pages.items())` and starts with an empty ignored set. -/
def buildDocument (pages : List (ℕ × PageInput)) : Except PyErr DocState :=
  match buildPagesSorted 0 (List.insertionSort pageNumberLe pages) with
  | .ok (els, pgs) => .ok ⟨els, pgs, ∅⟩
  | .error e => .error e

/-- Reading order between two elements of a constructed document: an
earlier page, or the same page and the default ordering key not larger. -/
abbrev readingOrderRel (a b : PDFElement) : Prop :=
  a.pageNumber < b.pageNumber ∨
    (a.pageNumber = b.pageNumber ∧ defaultOrderLe a.box b.box)

/-- Membership of `ElementList.__contains__`: the element's index is in the
stored index set. -/
abbrev elContains (L : ElementList) (e : PDFElement) : Prop := e.index ∈ L.indexes

instance {ε α : Type} [DecidableEq ε] [DecidableEq α] : DecidableEq (Except ε α)
  | .ok a, .ok b => decidable_of_iff (a = b) (by simp)
  | .ok _, .error _ => isFalse (by simp)
  | .error _, .ok _ => isFalse (by simp)
  | .error e, .error f => decidable_of_iff (e = f) (by simp)

/-
Concrete instances used by the evaluated scenarios.
-/

/-- The four-element single-page table of the table-reconstruction
scenario: boxes (0,5,6,10), (6,10,6,10), (0,5,0,5), (6,10,0,5), listed in
reading order (sorted by the default key) on a 100 by 100 page. -/
def tableDoc : DocState :=
  ⟨[⟨0, 1, ⟨0, 5, 6, 10⟩, [], ""⟩,
    ⟨1, 1, ⟨6, 10, 6, 10⟩, [], ""⟩,
    ⟨2, 1, ⟨0, 5, 0, 5⟩, [], ""⟩,
    ⟨3, 1, ⟨6, 10, 0, 5⟩, [], ""⟩],
   [⟨1, 100, 100, 0, 3⟩], ∅⟩

/-- The same table extended with a fifth element whose box (50,60,20,30)
is horizontally aligned with no row and vertically aligned with no column.
Its top edge is the highest, so it sorts first in reading order. -/
def tableDocExtra : DocState :=
  ⟨[⟨0, 1, ⟨50, 60, 20, 30⟩, [], ""⟩,
    ⟨1, 1, ⟨0, 5, 6, 10⟩, [], ""⟩,
    ⟨2, 1, ⟨6, 10, 6, 10⟩, [], ""⟩,
    ⟨3, 1, ⟨0, 5, 0, 5⟩, [], ""⟩,
    ⟨4, 1, ⟨6, 10, 0, 5⟩, [], ""⟩],
   [⟨1, 100, 100, 0, 4⟩], ∅⟩

/-- A six-element single-page document, nothing ignored, for the ignore
scenario. -/
def sixElemDoc : DocState :=
  ⟨[⟨0, 1, ⟨0, 1, 8, 9⟩, [], ""⟩,
    ⟨1, 1, ⟨2, 3, 8, 9⟩, [], ""⟩,
    ⟨2, 1, ⟨4, 5, 8, 9⟩, [], ""⟩,
    ⟨3, 1, ⟨0, 1, 2, 3⟩, [], ""⟩,
    ⟨4, 1, ⟨2, 3, 2, 3⟩, [], ""⟩,
    ⟨5, 1, ⟨4, 5, 2, 3⟩, [], ""⟩],
   [⟨1, 10, 10, 0, 5⟩], ∅⟩

/-- A one-element document whose element carries the tag t, used to
evaluate the set-operator claims under an intervening ignore. -/
def taggedDoc : DocState :=
  ⟨[⟨0, 1, ⟨0, 1, 0, 1⟩, ["t"], ""⟩], [⟨1, 10, 10, 0, 0⟩], ∅⟩

/-- A two-element document whose elements carry the font keys a and b. -/
def fontDoc : DocState :=
  ⟨[⟨0, 1, ⟨0, 1, 0, 1⟩, [], "a"⟩, ⟨1, 1, ⟨2, 3, 0, 1⟩, [], "b"⟩],
   [⟨1, 10, 10, 0, 1⟩], ∅⟩

/-- A plain two-element document for the section-filter scenario. -/
def twoElemDoc : DocState :=
  ⟨[⟨0, 1, ⟨0, 1, 0, 1⟩, [], ""⟩, ⟨1, 1, ⟨2, 3, 0, 1⟩, [], ""⟩],
   [⟨1, 10, 10, 0, 1⟩], ∅⟩

/-- A sectioning state holding one registered section foo_0 over the index
range 0..0 of document 0. -/
def oneSectionState : SectioningState := (createSection ⟨[], []⟩ 0 "foo" 0 0).1

/-- A two-page construction input: page 2 with one fragment, page 1 with
two fragments on one text line, given out of page order. -/
def twoPageInput : List (ℕ × PageInput) :=
  [(2, ⟨10, 10, [⟨0, 1, 0, 1⟩]⟩), (1, ⟨10, 10, [⟨0, 1, 2, 3⟩, ⟨2, 3, 2, 3⟩]⟩)]

/-- The document that `buildDocument` produces from `twoPageInput`. -/
def twoPageDoc : DocState :=
  ⟨[⟨0, 1, ⟨0, 1, 2, 3⟩, [], ""⟩, ⟨1, 1, ⟨2, 3, 2, 3⟩, [], ""⟩,
    ⟨2, 2, ⟨0, 1, 0, 1⟩, [], ""⟩],
   [⟨1, 10, 10, 0, 1⟩, ⟨2, 10, 10, 2, 2⟩], ∅⟩

/-
Theorems.
-/

/-- C7: for valid boxes, `partially_within` holds exactly when the two
boxes overlap non-strictly on both axes (a common point exists on each
axis, touching edges counting), and `entirely_within` holds exactly when
every point of the element's box lies within the given box; moreover, for
an element with box (2,5,2,5): box (1,6,1,6) gives both predicates true,
box (6,7,1,6) gives both false, and box (3,4,3,4) gives partially_within
true and entirely_within false. -/
theorem C7_geometric_predicates :
    (∀ e b : BoundingBox, e.valid → b.valid →
      ((partiallyWithin e b ↔
          (∃ x : ℚ, e.x0 ≤ x ∧ x ≤ e.x1 ∧ b.x0 ≤ x ∧ x ≤ b.x1) ∧
          (∃ y : ℚ, e.y0 ≤ y ∧ y ≤ e.y1 ∧ b.y0 ≤ y ∧ y ≤ b.y1)) ∧
        (entirelyWithin e b ↔
          ∀ x y : ℚ, e.x0 ≤ x → x ≤ e.x1 → e.y0 ≤ y → y ≤ e.y1 →
            b.x0 ≤ x ∧ x ≤ b.x1 ∧ b.y0 ≤ y ∧ y ≤ b.y1)))
    ∧ (partiallyWithin ⟨2, 5, 2, 5⟩ ⟨1, 6, 1, 6⟩
        ∧ entirelyWithin ⟨2, 5, 2, 5⟩ ⟨1, 6, 1, 6⟩)
    ∧ (¬ partiallyWithin ⟨2, 5, 2, 5⟩ ⟨6, 7, 1, 6⟩
        ∧ ¬ entirelyWithin ⟨2, 5, 2, 5⟩ ⟨6, 7, 1, 6⟩)
    ∧ (partiallyWithin ⟨2, 5, 2, 5⟩ ⟨3, 4, 3, 4⟩
        ∧ ¬ entirelyWithin ⟨2, 5, 2, 5⟩ ⟨3, 4, 3, 4⟩) := by
  refine ⟨fun e b he hb => ⟨⟨fun h => ?_, fun h => ?_⟩, ⟨fun h => ?_, fun h => ?_⟩⟩,
    by decide, by decide, by decide⟩
  · obtain ⟨hx1, hx2, hy1, hy2⟩ := h
    exact ⟨⟨max e.x0 b.x0, le_max_left _ _, max_le he.1 hx1, le_max_right _ _,
        max_le hx2 hb.1⟩,
      ⟨max e.y0 b.y0, le_max_left _ _, max_le he.2 hy1, le_max_right _ _,
        max_le hy2 hb.2⟩⟩
  · obtain ⟨⟨x, hex, hxe, hbx, hxb⟩, ⟨y, hey, hye, hby, hyb⟩⟩ := h
    exact ⟨le_trans hbx hxe, le_trans hex hxb, le_trans hby hye, le_trans hey hyb⟩
  · intro x y h1 h2 h3 h4
    exact ⟨le_trans h.1 h1, le_trans h2 h.2.1, le_trans h.2.2.1 h3,
      le_trans h4 h.2.2.2⟩
  · obtain ⟨h1, -, h3, -⟩ := h e.x0 e.y0 le_rfl he.1 le_rfl he.2
    obtain ⟨-, h2, -, h4⟩ := h e.x1 e.y1 he.1 le_rfl he.2 le_rfl
    exact ⟨h1, h2, h3, h4⟩

/-- Witness for C7: the general characterisation applied to the concrete
element box (2,5,2,5) and the enclosing box (1,6,1,6). -/
theorem C7_geometric_predicates_witness :
    (⟨2, 5, 2, 5⟩ : BoundingBox).valid ∧ (⟨1, 6, 1, 6⟩ : BoundingBox).valid ∧
    ((partiallyWithin ⟨2, 5, 2, 5⟩ ⟨1, 6, 1, 6⟩ ↔
        (∃ x : ℚ, (2:ℚ) ≤ x ∧ x ≤ 5 ∧ (1:ℚ) ≤ x ∧ x ≤ 6) ∧
        (∃ y : ℚ, (2:ℚ) ≤ y ∧ y ≤ 5 ∧ (1:ℚ) ≤ y ∧ y ≤ 6)) ∧
      (entirelyWithin ⟨2, 5, 2, 5⟩ ⟨1, 6, 1, 6⟩ ↔
        ∀ x y : ℚ, (2:ℚ) ≤ x → x ≤ 5 → (2:ℚ) ≤ y → y ≤ 5 →
          (1:ℚ) ≤ x ∧ x ≤ 6 ∧ (1:ℚ) ≤ y ∧ y ≤ 6)) :=
  ⟨by decide, by decide,
    C7_geometric_predicates.1 ⟨2, 5, 2, 5⟩ ⟨1, 6, 1, 6⟩ (by decide) (by decide)⟩

/-- C1: ignoring an element removes exactly its index from every Query
Result constructed afterwards (and lowers the cardinality by one when the
candidate set contained it), while a Query Result value constructed before
the ignore is a pure value and keeps its index set; concretely, on the
six-element single-page document, the list captured before holds indexes
0..5, and after ignoring the element with index 2 a freshly constructed
full list has five elements and fails the membership test for it. -/
theorem C1_ignore_construction_time :
    (∀ (doc : DocState) (e : PDFElement) (S : Finset ℕ),
      e.index ∈ S → e.index ∉ doc.ignored →
        (mkElementList (ignoreElement doc e) S).indexes
            = (mkElementList doc S).indexes \ {e.index}
        ∧ ¬ elContains (mkElementList (ignoreElement doc e) S) e
        ∧ (mkElementList (ignoreElement doc e) S).indexes.card + 1
            = (mkElementList doc S).indexes.card)
    ∧ ((allElements sixElemDoc).indexes = Finset.range 6
        ∧ (allElements sixElemDoc).indexes.card = 6
        ∧ (allElements (ignoreElement sixElemDoc (elemAt sixElemDoc 2))).indexes.card = 5
        ∧ ¬ elContains (allElements (ignoreElement sixElemDoc (elemAt sixElemDoc 2)))
            (elemAt sixElemDoc 2)
        ∧ elContains (allElements sixElemDoc) (elemAt sixElemDoc 2)) := by
  constructor
  · intro doc e S hS hni
    have hset : (mkElementList (ignoreElement doc e) S).indexes
        = (mkElementList doc S).indexes \ {e.index} := by
      simp only [mkElementList, ignoreElement]
      ext i
      simp only [Finset.mem_sdiff, Finset.mem_insert, Finset.mem_singleton]
      tauto
    refine ⟨hset, ?_, ?_⟩
    · simp only [elContains, hset, Finset.sdiff_singleton_eq_erase]
      exact Finset.not_mem_erase _ _
    · rw [hset, Finset.sdiff_singleton_eq_erase, Finset.card_erase_add_one]
      simp only [mkElementList, Finset.mem_sdiff]
      exact ⟨hS, hni⟩
  · exact ⟨by decide, by decide, by decide, by decide, by decide⟩

/-- Witness for C1: the general part applied on the six-element document to
the element with index 2 and the full candidate set. -/
theorem C1_ignore_construction_time_witness :
    ((elemAt sixElemDoc 2).index ∈ Finset.range 6
      ∧ (elemAt sixElemDoc 2).index ∉ sixElemDoc.ignored)
    ∧ ((mkElementList (ignoreElement sixElemDoc (elemAt sixElemDoc 2))
          (Finset.range 6)).indexes
        = (mkElementList sixElemDoc (Finset.range 6)).indexes \ {(elemAt sixElemDoc 2).index}
      ∧ ¬ elContains (mkElementList (ignoreElement sixElemDoc (elemAt sixElemDoc 2))
          (Finset.range 6)) (elemAt sixElemDoc 2)
      ∧ (mkElementList (ignoreElement sixElemDoc (elemAt sixElemDoc 2))
          (Finset.range 6)).indexes.card + 1
        = (mkElementList sixElemDoc (Finset.range 6)).indexes.card) :=
  ⟨⟨by decide, by decide⟩,
    C1_ignore_construction_time.1 sixElemDoc (elemAt sixElemDoc 2) (Finset.range 6)
      (by decide) (by decide)⟩

/-- C2 counterexample: with an ignore intervening between construction and
combination, the union operator is not monotone: on the one-element
document, A = all elements, then ignoring the element makes A | A (built
against the mutated state) empty, so its index set does not contain A's. -/
theorem C2_set_algebra_counterexample :
    ¬ ((allElements taggedDoc).indexes ⊆
        (elOr (ignoreElement taggedDoc (elemAt taggedDoc 0))
          (allElements taggedDoc) (allElements taggedDoc)).indexes) := by
  decide

/-- C2 (amended): against a fixed document state, (A&B) ⊆ A, (A&B) ⊆ B and
(A-B) avoids B unconditionally; A|B ⊇ A provided A's index set avoids the
ignored set current at the union's construction (in particular when no
ignore() intervened); and re-filtering by an already-applied tag filter in
an unchanged state returns an identical Query Result. -/
theorem C2_set_algebra (doc : DocState) (A B : ElementList) (t : String) :
    (elAnd doc A B).indexes ⊆ A.indexes
    ∧ (elAnd doc A B).indexes ⊆ B.indexes
    ∧ (∀ i ∈ (elSub doc A B).indexes, i ∉ B.indexes)
    ∧ (Disjoint A.indexes doc.ignored → A.indexes ⊆ (elOr doc A B).indexes)
    ∧ filterByTag doc (filterByTag doc A t) t = filterByTag doc A t := by
  refine ⟨?_, ?_, ?_, ?_, ?_⟩
  · intro i hi
    simp only [elAnd, mkElementList, Finset.mem_sdiff, Finset.mem_inter] at hi
    exact hi.1.1
  · intro i hi
    simp only [elAnd, mkElementList, Finset.mem_sdiff, Finset.mem_inter] at hi
    exact hi.1.2
  · intro i hi
    simp only [elSub, mkElementList, Finset.mem_sdiff] at hi
    exact hi.1.2
  · intro hdisj i hi
    simp only [elOr, mkElementList, Finset.mem_sdiff, Finset.mem_union]
    exact ⟨Or.inl hi, Finset.disjoint_left.mp hdisj hi⟩
  · have : (filterByTag doc (filterByTag doc A t) t).indexes
        = (filterByTag doc A t).indexes := by
      ext i
      simp only [filterByTag, mkElementList, Finset.mem_sdiff, Finset.mem_filter]
      tauto
    cases hF : filterByTag doc (filterByTag doc A t) t with
    | mk s =>
      cases hG : filterByTag doc A t with
      | mk s' =>
        have := this
        rw [hF, hG] at this
        simpa using this

/-- Witness for C2: the amended algebra applied on the one-element tagged
document to A = B = all elements, where nothing is ignored so the
disjointness hypothesis of the union part holds. -/
theorem C2_set_algebra_witness :
    Disjoint (allElements taggedDoc).indexes taggedDoc.ignored ∧
    (allElements taggedDoc).indexes ⊆
      (elOr taggedDoc (allElements taggedDoc) (allElements taggedDoc)).indexes ∧
    filterByTag taggedDoc (filterByTag taggedDoc (allElements taggedDoc) "t") "t"
      = filterByTag taggedDoc (allElements taggedDoc) "t" := by
  have h := C2_set_algebra taggedDoc (allElements taggedDoc) (allElements taggedDoc) "t"
  have hd : Disjoint (allElements taggedDoc).indexes taggedDoc.ignored :=
    Finset.disjoint_empty_right _
  exact ⟨hd, h.2.2.2.1 hd, h.2.2.2.2⟩

/-- C10: on a Query Result with an empty index set, `after` raises the
unguarded ValueError coming from taking the maximum of the empty index set
(whether or not inclusive is passed), while `before` returns an empty Query
Result without raising. -/
theorem C10_after_empty_raises (doc : DocState) (L : ElementList)
    (e : PDFElement) (incl : Bool) (h : L.indexes = ∅) :
    elAfter doc L e incl = .error .valueError
    ∧ (elBefore doc L e incl).indexes = ∅ := by
  constructor
  · simp [elAfter, pyMax, h]
  · simp only [elBefore, intersectWithSelf, elAnd, mkElementList, h]
    simp

/-- Witness for C10: the empty list over the six-element document. -/
theorem C10_after_empty_raises_witness :
    (mkElementList sixElemDoc ∅).indexes = ∅
    ∧ elAfter sixElemDoc (mkElementList sixElemDoc ∅) (elemAt sixElemDoc 0) false
        = .error .valueError
    ∧ (elBefore sixElemDoc (mkElementList sixElemDoc ∅) (elemAt sixElemDoc 0)
        false).indexes = ∅ := by
  have h := C10_after_empty_raises sixElemDoc (mkElementList sixElemDoc ∅)
    (elemAt sixElemDoc 0) false (by decide)
  exact ⟨by decide, h.1, h.2⟩

/-- C5 (code evidence): `create_section` in the source tree performs no
range validation — called with an end element whose index 0 precedes the
start element's index 1, it raises nothing and registers the section under
the unique name test_0, contradicting the claim (and the repository's own
tests, which expect InvalidSectionError here and also pass an
include_last_element argument that this create_section does not accept). -/
theorem C5_create_section_no_validation :
    (createSection ⟨[], []⟩ 0 "test" 1 0).2.uniqueName = "test_0"
    ∧ (createSection ⟨[], []⟩ 0 "test" 1 0).2.startIdx = 1
    ∧ (createSection ⟨[], []⟩ 0 "test" 1 0).2.endIdx = 0
    ∧ assocFind (createSection ⟨[], []⟩ 0 "test" 1 0).1.sectionsDict "test_0"
        = some (createSection ⟨[], []⟩ 0 "test" 1 0).2 := by
  decide

/-- C9: the registry and the name-suffix counter live in `Sectioning` class
attributes, one state shared by every instance: creating a section named
foo for document 0 and then one named foo for the distinct document 1
yields the unique names foo_0 and foo_1 (the counter carries over across
documents), and both sections are reachable in the one shared
sections_dict. -/
theorem C9_class_level_registry :
    ((createSection ⟨[], []⟩ 0 "foo" 0 1).2.uniqueName = "foo_0")
    ∧ ((createSection (createSection ⟨[], []⟩ 0 "foo" 0 1).1 1 "foo" 0 1).2.uniqueName
        = "foo_1")
    ∧ (assocFind (createSection (createSection ⟨[], []⟩ 0 "foo" 0 1).1 1 "foo" 0 1).1.sectionsDict
        "foo_0" = some (createSection ⟨[], []⟩ 0 "foo" 0 1).2)
    ∧ (assocFind (createSection (createSection ⟨[], []⟩ 0 "foo" 0 1).1 1 "foo" 0 1).1.sectionsDict
        "foo_1" = some (createSection (createSection ⟨[], []⟩ 0 "foo" 0 1).1 1 "foo" 0 1).2)
    ∧ (createSection ⟨[], []⟩ 0 "foo" 0 1).2.docId
        ≠ (createSection (createSection ⟨[], []⟩ 0 "foo" 0 1).1 1 "foo" 0 1).2.docId := by
  decide

/-- C4 (code evidence): with one registered section foo_0,
`filter_by_section` on the unknown name degrades to an empty Query Result
(its `get_section` raising SectionNotFound is caught), and
`filter_by_sections` on a known name alone returns that section's
elements — but naming any unknown section makes `filter_by_sections` raise
the builtin KeyError from the bare dictionary access, which its handler
(written for SectionNotFoundError) does not catch, instead of skipping the
unknown name as the claim states. -/
theorem C4_unknown_section_behaviour :
    filterBySection twoElemDoc oneSectionState (allElements twoElemDoc) "unknown"
        = .ok ⟨∅⟩
    ∧ filterBySections twoElemDoc oneSectionState (allElements twoElemDoc) ["foo_0"]
        = .ok ⟨{0}⟩
    ∧ filterBySections twoElemDoc oneSectionState (allElements twoElemDoc)
        ["foo_0", "unknown"] = .error .keyError := by
  decide

/-- C8: on the four-element single-page Query Result with boxes (0,5,6,10),
(6,10,6,10), (0,5,0,5), (6,10,0,5), both extract_simple_table and
extract_table return the 2 by 2 grid with rows top-to-bottom and columns
left-to-right; extended with a fifth element aligned with no row and no
column, extract_simple_table with default arguments raises
TableExtractionError because the populated-cell count (its sole reference
row and column there yield a 1 by 1 grid) differs from the element count. -/
theorem C8_table_reconstruction :
    extractSimpleTable tableDoc (allElements tableDoc) false none
        = .ok [[some (elemAt tableDoc 0), some (elemAt tableDoc 1)],
               [some (elemAt tableDoc 2), some (elemAt tableDoc 3)]]
    ∧ extractTable tableDoc (allElements tableDoc)
        = .ok [[some (elemAt tableDoc 0), some (elemAt tableDoc 1)],
               [some (elemAt tableDoc 2), some (elemAt tableDoc 3)]]
    ∧ extractSimpleTable tableDocExtra (allElements tableDocExtra) false none
        = .error .tableExtraction := by
  refine ⟨by decide, by decide, by decide⟩


/-- Lookup after an association update: the updated key answers the new
value, every other key is unchanged. -/
theorem assocFind_assocSet {α : Type} (es : List (String × α)) (k k' : String)
    (v : α) :
    assocFind (assocSet es k v) k' = if k = k' then some v else assocFind es k' := by
  induction es with
  | nil => simp [assocSet, assocFind]
  | cons p rest ih =>
    obtain ⟨pk, pv⟩ := p
    simp only [assocSet]
    by_cases hpk : pk = k
    · rw [if_pos hpk]
      subst hpk
      simp only [assocFind]
      by_cases h2 : pk = k'
      · simp [h2]
      · simp [h2]
    · rw [if_neg hpk]
      simp only [assocFind]
      by_cases h2 : pk = k'
      · have hk : k ≠ k' := fun hh => hpk (hh ▸ h2)
        simp [h2, hk]
      · simp [h2, ih]

/-- Key membership after an association update. -/
theorem mem_keys_assocSet {α : Type} (es : List (String × α)) (k k' : String)
    (v : α) :
    k' ∈ (assocSet es k v).map Prod.fst ↔ k' = k ∨ k' ∈ es.map Prod.fst := by
  induction es with
  | nil => simp [assocSet]
  | cons p rest ih =>
    obtain ⟨pk, pv⟩ := p
    simp only [assocSet]
    by_cases hpk : pk = k
    · rw [if_pos hpk]
      subst hpk
      simp only [List.map_cons, List.mem_cons]
      tauto
    · rw [if_neg hpk]
      simp only [List.map_cons, List.mem_cons, ih]
      tauto

/-- An association update preserves distinctness of keys. -/
theorem nodup_keys_assocSet {α : Type} (es : List (String × α)) (k : String)
    (v : α) (h : (es.map Prod.fst).Nodup) :
    ((assocSet es k v).map Prod.fst).Nodup := by
  induction es with
  | nil => simp [assocSet]
  | cons p rest ih =>
    obtain ⟨pk, pv⟩ := p
    simp only [List.map_cons, List.nodup_cons] at h
    simp only [assocSet]
    by_cases hpk : pk = k
    · rw [if_pos hpk]
      subst hpk
      simp only [List.map_cons, List.nodup_cons]
      exact h
    · rw [if_neg hpk]
      simp only [List.map_cons, List.nodup_cons]
      refine ⟨fun hmem => ?_, ih h.2⟩
      rcases (mem_keys_assocSet rest k pk v).mp hmem with h1 | h1
      · exact hpk h1
      · exact h.1 h1

/-- A key is absent from an association list exactly when lookup misses. -/
theorem assocFind_eq_none_iff {α : Type} (es : List (String × α)) (k : String) :
    assocFind es k = none ↔ k ∉ es.map Prod.fst := by
  induction es with
  | nil => simp [assocFind]
  | cons p rest ih =>
    obtain ⟨pk, pv⟩ := p
    by_cases hpk : pk = k
    · subst hpk
      simp [assocFind]
    · simp only [assocFind, if_neg hpk, List.map_cons, List.mem_cons, ih]
      constructor
      · rintro h1 (h2 | h2)
        · exact hpk h2.symm
        · exact h1 h2
      · intro h1
        exact fun h2 => h1 (Or.inr h2)

/-- A successful lookup is a member of the association list. -/
theorem mem_of_assocFind_eq_some {α : Type} {es : List (String × α)} {k : String}
    {v : α} (h : assocFind es k = some v) : (k, v) ∈ es := by
  induction es with
  | nil => simp [assocFind] at h
  | cons p rest ih =>
    obtain ⟨pk, pv⟩ := p
    by_cases hpk : pk = k
    · subst hpk
      have h' : pv = v := by simpa [assocFind] using h
      subst h'
      exact List.mem_cons_self _ _
    · simp only [assocFind, if_neg hpk] at h
      exact List.mem_cons_of_mem _ (ih h)

/-- With distinct keys, membership determines the lookup. -/
theorem assocFind_eq_some_of_mem {α : Type} {es : List (String × α)}
    (hnd : (es.map Prod.fst).Nodup) {k : String} {v : α} (h : (k, v) ∈ es) :
    assocFind es k = some v := by
  induction es with
  | nil => simp at h
  | cons p rest ih =>
    obtain ⟨pk, pv⟩ := p
    simp only [List.map_cons, List.nodup_cons] at hnd
    rcases List.mem_cons.mp h with h1 | h1
    · injection h1 with h1k h1v
      subst h1k
      subst h1v
      simp [assocFind]
    · have hk : pk ≠ k := by
        intro he
        subst he
        exact hnd.1 (List.mem_map.mpr ⟨(pk, v), h1, rfl⟩)
      simp only [assocFind, if_neg hk]
      exact ih hnd.2 h1

/-- Bucket contents after one defaultdict insertion. -/
theorem cacheFindD_cacheAdd (c : FontCache) (g : String) (i : ℕ) (f : String) :
    cacheFindD (cacheAdd c g i) f =
      if g = f then insert i (cacheFindD c g) else cacheFindD c f := by
  simp only [cacheFindD, cacheAdd, assocFind_assocSet]
  split_ifs <;> simp [cacheFindD]

/-- Key membership after one defaultdict insertion. -/
theorem mem_cacheKeys_cacheAdd (c : FontCache) (g : String) (i : ℕ) (f : String) :
    f ∈ cacheKeys (cacheAdd c g i) ↔ f = g ∨ f ∈ cacheKeys c :=
  mem_keys_assocSet c.entries g f _

/-- Key distinctness is preserved by defaultdict insertion. -/
theorem nodup_cacheKeys_cacheAdd (c : FontCache) (g : String) (i : ℕ)
    (h : (cacheKeys c).Nodup) : (cacheKeys (cacheAdd c g i)).Nodup :=
  nodup_keys_assocSet c.entries g _ h

/-- Unfolding of the element-indexes-per-font set over a cons. -/
theorem listFontIndexes_cons (e : PDFElement) (l : List PDFElement) (f : String) :
    listFontIndexes (e :: l) f =
      if e.font = f then insert e.index (listFontIndexes l f)
      else listFontIndexes l f := by
  by_cases h : e.font = f
  · simp [listFontIndexes, List.filter_cons, h]
  · simp [listFontIndexes, List.filter_cons, h]

/-- Membership in the element-indexes-per-font set. -/
theorem mem_listFontIndexes {l : List PDFElement} {f : String} {i : ℕ} :
    i ∈ listFontIndexes l f ↔ ∃ e ∈ l, e.font = f ∧ e.index = i := by
  simp only [listFontIndexes, List.mem_toFinset, List.mem_map, List.mem_filter]
  constructor
  · rintro ⟨e, ⟨he, hf⟩, hi⟩
    exact ⟨e, he, by simpa using hf, hi⟩
  · rintro ⟨e, he, hf, hi⟩
    exact ⟨e, ⟨he, by simpa using hf⟩, hi⟩

/-- Behaviour of the cache-building pass: a requested non-cached font's
bucket gains exactly the indexes of the passed elements carrying it, every
other bucket is untouched; the key set grows by exactly the requested fonts
possessed by some passed element; key distinctness is preserved. -/
theorem fontPass_spec (nonCached : List String) (l : List PDFElement)
    (c : FontCache) :
    (∀ f, cacheFindD (fontPass nonCached l c) f =
        if f ∈ nonCached then cacheFindD c f ∪ listFontIndexes l f
        else cacheFindD c f)
    ∧ (∀ f, f ∈ cacheKeys (fontPass nonCached l c) ↔
        f ∈ cacheKeys c ∨ (f ∈ nonCached ∧ ∃ e ∈ l, e.font = f))
    ∧ ((cacheKeys c).Nodup → (cacheKeys (fontPass nonCached l c)).Nodup) := by
  induction l generalizing c with
  | nil =>
    refine ⟨fun f => ?_, fun f => ?_, fun h => h⟩
    · simp only [fontPass, List.foldl_nil, listFontIndexes, List.filter_nil,
        List.map_nil, List.toFinset_nil, Finset.union_empty]
      split_ifs <;> rfl
    · simp [fontPass]
  | cons e l ih =>
    by_cases he : e.font ∈ nonCached
    · have hstep : fontPass nonCached (e :: l) c
          = fontPass nonCached l (cacheAdd c e.font e.index) := by
        simp [fontPass, he]
      refine ⟨fun f => ?_, fun f => ?_, fun h => ?_⟩
      · rw [hstep, (ih _).1 f, listFontIndexes_cons]
        by_cases hf : f ∈ nonCached
        · rw [if_pos hf, if_pos hf, cacheFindD_cacheAdd]
          by_cases hef : e.font = f
          · subst hef
            rw [if_pos rfl, if_pos rfl, Finset.insert_union, Finset.union_insert]
          · rw [if_neg hef, if_neg hef]
        · have hef : e.font ≠ f := fun hh => hf (hh ▸ he)
          rw [if_neg hf, if_neg hf, cacheFindD_cacheAdd, if_neg hef]
      · rw [hstep, (ih _).2.1 f, mem_cacheKeys_cacheAdd]
        simp only [List.mem_cons]
        constructor
        · rintro ((h1 | h1) | ⟨h1, e', h2, h3⟩)
          · exact Or.inr ⟨h1 ▸ he, e, Or.inl rfl, h1.symm⟩
          · exact Or.inl h1
          · exact Or.inr ⟨h1, e', Or.inr h2, h3⟩
        · rintro (h1 | ⟨h1, e', (h2 | h2), h3⟩)
          · exact Or.inl (Or.inr h1)
          · exact Or.inl (Or.inl (h2 ▸ h3.symm))
          · exact Or.inr ⟨h1, e', h2, h3⟩
      · rw [hstep]
        exact (ih _).2.2 (nodup_cacheKeys_cacheAdd c e.font e.index h)
    · have hstep : fontPass nonCached (e :: l) c = fontPass nonCached l c := by
        simp [fontPass, he]
      refine ⟨fun f => ?_, fun f => ?_, fun h => ?_⟩
      · rw [hstep, (ih _).1 f, listFontIndexes_cons]
        by_cases hf : f ∈ nonCached
        · have hef : e.font ≠ f := fun hh => he (hh ▸ hf)
          rw [if_pos hf, if_pos hf, if_neg hef]
        · rw [if_neg hf, if_neg hf]
      · rw [hstep, (ih _).2.1 f]
        simp only [List.mem_cons]
        constructor
        · rintro (h1 | ⟨h1, e', h2, h3⟩)
          · exact Or.inl h1
          · exact Or.inr ⟨h1, e', Or.inr h2, h3⟩
        · rintro (h1 | ⟨h1, e', (h2 | h2), h3⟩)
          · exact Or.inl h1
          · subst h2
            rw [h3] at he
            exact absurd h1 he
          · exact Or.inr ⟨h1, e', h2, h3⟩
      · exact hstep ▸ (ih _).2.2 h

/-- Membership in the answer fold over the cache entries. -/
theorem mem_entriesFold (fonts : List String) (es : List (String × Finset ℕ))
    (init : Finset ℕ) (i : ℕ) :
    (i ∈ es.foldl (fun s p => if p.1 ∈ fonts then s ∪ p.2 else s) init) ↔
      i ∈ init ∨ ∃ p ∈ es, p.1 ∈ fonts ∧ i ∈ p.2 := by
  induction es generalizing init with
  | nil => simp
  | cons p rest ih =>
    simp only [List.foldl_cons, ih, List.mem_cons]
    by_cases hp : p.1 ∈ fonts
    · simp only [if_pos hp, Finset.mem_union]
      constructor
      · rintro ((h | h) | ⟨q, hq, hqf, hqi⟩)
        · exact Or.inl h
        · exact Or.inr ⟨p, Or.inl rfl, hp, h⟩
        · exact Or.inr ⟨q, Or.inr hq, hqf, hqi⟩
      · rintro (h | ⟨q, (hq | hq), hqf, hqi⟩)
        · exact Or.inl (Or.inl h)
        · exact Or.inl (Or.inr (hq ▸ hqi))
        · exact Or.inr ⟨q, hq, hqf, hqi⟩
    · simp only [if_neg hp]
      constructor
      · rintro (h | ⟨q, hq, hqf, hqi⟩)
        · exact Or.inl h
        · exact Or.inr ⟨q, Or.inr hq, hqf, hqi⟩
      · rintro (h | ⟨q, (hq | hq), hqf, hqi⟩)
        · exact Or.inl h
        · exact absurd (hq ▸ hqf) hp
        · exact Or.inr ⟨q, hq, hqf, hqi⟩

/-- Membership in the union of the per-font index sets over a font list. -/
theorem mem_fontsFold (doc : DocState) (fonts : List String) (init : Finset ℕ)
    (i : ℕ) :
    (i ∈ fonts.foldl (fun s f => s ∪ fontIndexes doc f) init) ↔
      i ∈ init ∨ ∃ f ∈ fonts, i ∈ fontIndexes doc f := by
  induction fonts generalizing init with
  | nil => simp
  | cons f rest ih =>
    simp only [List.foldl_cons, ih, Finset.mem_union, List.mem_cons]
    constructor
    · rintro ((h | h) | ⟨g, hg, hgi⟩)
      · exact Or.inl h
      · exact Or.inr ⟨f, Or.inl rfl, h⟩
      · exact Or.inr ⟨g, Or.inr hg, hgi⟩
    · rintro (h | ⟨g, (hg | hg), hgi⟩)
      · exact Or.inl (Or.inl h)
      · exact Or.inl (Or.inr (hg ▸ hgi))
      · exact Or.inr ⟨g, hg, hgi⟩

/-- C3 counterexample: on the two-element document with fonts a and b,
calling the filter for the not-yet-cached font a passes over the elements
but does not insert b — the font key of an element of the document — into
the cache, so the pass buckets only the requested keys, not every
element's key as the claim states. -/
theorem C3_font_cache_counterexample :
    "a" ∉ cacheKeys (⟨[]⟩ : FontCache)
    ∧ (∃ e ∈ fontDoc.elements, e.font = "b")
    ∧ "b" ∉ cacheKeys (elementIndexesWithFonts fontDoc ⟨[]⟩ ["a"]).1 := by
  refine ⟨by decide, ⟨fontDoc.elements.getD 1 default, by decide, by decide⟩, by decide⟩

/-- C3 (amended): starting from a coherent cache, a font-filter call leaves
the cache coherent, never touches an already-cached bucket (cached keys are
not recomputed), caches every requested font key possessed by at least one
element (so repeated filters for the requested keys are answered from the
cache), and answers exactly the indexes of the elements whose font is among
the requested keys; only the requested not-yet-cached keys are inserted. -/
theorem C3_font_cache (doc : DocState) (cache : FontCache) (fonts : List String)
    (hc : CacheCoherent doc cache) :
    CacheCoherent doc (elementIndexesWithFonts doc cache fonts).1
    ∧ (∀ f, f ∈ cacheKeys cache →
        f ∈ cacheKeys (elementIndexesWithFonts doc cache fonts).1
        ∧ cacheFindD (elementIndexesWithFonts doc cache fonts).1 f
            = cacheFindD cache f)
    ∧ (∀ f ∈ fonts, (∃ e ∈ doc.elements, e.font = f) →
        f ∈ cacheKeys (elementIndexesWithFonts doc cache fonts).1)
    ∧ (∀ f, f ∈ cacheKeys (elementIndexesWithFonts doc cache fonts).1 →
        f ∈ cacheKeys cache ∨ f ∈ fonts)
    ∧ (elementIndexesWithFonts doc cache fonts).2
        = fonts.foldl (fun s f => s ∪ fontIndexes doc f) ∅ := by
  classical
  set nc := fonts.filter (fun f => f ∉ cacheKeys cache) with hnc
  have hsub : ∀ f ∈ nc, f ∈ fonts ∧ f ∉ cacheKeys cache := by
    intro f hf
    have := List.mem_filter.mp hf
    exact ⟨this.1, by simpa using this.2⟩
  have hcache1 :
      (elementIndexesWithFonts doc cache fonts).1
        = if nc.isEmpty then cache else fontPass nc doc.elements cache := rfl
  -- Key facts about the updated cache, uniform over the two branches.
  have hval : ∀ f, cacheFindD (elementIndexesWithFonts doc cache fonts).1 f =
      if f ∈ nc then cacheFindD cache f ∪ listFontIndexes doc.elements f
      else cacheFindD cache f := by
    intro f
    rw [hcache1]
    by_cases hemp : nc.isEmpty
    · rw [if_pos hemp]
      have : f ∉ nc := by
        intro hf
        rw [List.isEmpty_iff] at hemp
        simp [hemp] at hf
      rw [if_neg this]
    · rw [if_neg hemp]
      exact (fontPass_spec nc doc.elements cache).1 f
  have hkeys : ∀ f, f ∈ cacheKeys (elementIndexesWithFonts doc cache fonts).1 ↔
      f ∈ cacheKeys cache ∨ (f ∈ nc ∧ ∃ e ∈ doc.elements, e.font = f) := by
    intro f
    rw [hcache1]
    by_cases hemp : nc.isEmpty
    · rw [if_pos hemp]
      rw [List.isEmpty_iff] at hemp
      simp [hemp]
    · rw [if_neg hemp]
      exact (fontPass_spec nc doc.elements cache).2.1 f
  have hnd : (cacheKeys (elementIndexesWithFonts doc cache fonts).1).Nodup := by
    rw [hcache1]
    by_cases hemp : nc.isEmpty
    · rw [if_pos hemp]
      exact hc.1
    · rw [if_neg hemp]
      exact (fontPass_spec nc doc.elements cache).2.2 hc.1
  -- The empty bucket of a key absent from the coherent initial cache.
  have hmiss : ∀ f, f ∉ cacheKeys cache → cacheFindD cache f = ∅ := by
    intro f hf
    have := (assocFind_eq_none_iff cache.entries f).mpr hf
    simp [cacheFindD, this]
  have hhit : ∀ f, f ∈ cacheKeys cache → cacheFindD cache f = fontIndexes doc f := by
    intro f hf
    obtain ⟨p, hp, hpf⟩ := List.mem_map.mp hf
    obtain ⟨pk, pv⟩ := p
    cases hpf
    have := hc.2 _ _ hp
    simp [cacheFindD, assocFind_eq_some_of_mem hc.1 hp, this]
  have hcoh : CacheCoherent doc (elementIndexesWithFonts doc cache fonts).1 := by
    refine ⟨hnd, fun f s hmem => ?_⟩
    have hfind := assocFind_eq_some_of_mem hnd hmem
    have hsval : cacheFindD (elementIndexesWithFonts doc cache fonts).1 f = s := by
      simp [cacheFindD, hfind]
    rw [hval f] at hsval
    by_cases hf : f ∈ nc
    · rw [if_pos hf, hmiss f (hsub f hf).2, Finset.empty_union] at hsval
      exact hsval.symm.trans rfl
    · rw [if_neg hf] at hsval
      have hkey : f ∈ cacheKeys cache := by
        have := (hkeys f).mp (List.mem_map.mpr ⟨(f, s), hmem, rfl⟩)
        rcases this with h1 | ⟨h1, -⟩
        · exact h1
        · exact absurd h1 hf
      rw [hhit f hkey] at hsval
      exact hsval.symm
  refine ⟨hcoh, ?_, ?_, ?_, ?_⟩
  · intro f hf
    have hfn : f ∉ nc := by
      intro hfn
      exact (hsub f hfn).2 hf
    exact ⟨(hkeys f).mpr (Or.inl hf), by rw [hval f, if_neg hfn]⟩
  · intro f hf hex
    by_cases hkey : f ∈ cacheKeys cache
    · exact (hkeys f).mpr (Or.inl hkey)
    · have hfn : f ∈ nc := List.mem_filter.mpr ⟨hf, by simpa using hkey⟩
      exact (hkeys f).mpr (Or.inr ⟨hfn, hex⟩)
  · intro f hf
    rcases (hkeys f).mp hf with h1 | ⟨h1, -⟩
    · exact Or.inl h1
    · exact Or.inr (hsub f h1).1
  · ext i
    have hres : (elementIndexesWithFonts doc cache fonts).2
        = (elementIndexesWithFonts doc cache fonts).1.entries.foldl
            (fun s p => if p.1 ∈ fonts then s ∪ p.2 else s) ∅ := rfl
    rw [hres, mem_entriesFold, mem_fontsFold]
    simp only [Finset.not_mem_empty, false_or]
    constructor
    · rintro ⟨p, hp, hpf, hpi⟩
      obtain ⟨pk, pv⟩ := p
      have := hcoh.2 _ _ hp
      exact ⟨pk, hpf, this ▸ hpi⟩
    · rintro ⟨f, hf, hfi⟩
      have hex : ∃ e ∈ doc.elements, e.font = f := by
        obtain ⟨e, he, hef, -⟩ := mem_listFontIndexes.mp hfi
        exact ⟨e, he, hef⟩
      have hkey : f ∈ cacheKeys (elementIndexesWithFonts doc cache fonts).1 := by
        by_cases hk : f ∈ cacheKeys cache
        · exact (hkeys f).mpr (Or.inl hk)
        · exact (hkeys f).mpr (Or.inr ⟨List.mem_filter.mpr ⟨hf, by simpa using hk⟩, hex⟩)
      obtain ⟨p, hp, hpf⟩ := List.mem_map.mp hkey
      obtain ⟨pk, pv⟩ := p
      cases hpf
      have := hcoh.2 _ _ hp
      exact ⟨(pk, pv), hp, hf, this ▸ hfi⟩

/-- Witness for C3: the amended cache behaviour applied to the two-element
document with fonts a and b, the empty (vacuously coherent) cache and the
request for font a. -/
theorem C3_font_cache_witness :
    CacheCoherent fontDoc (⟨[]⟩ : FontCache)
    ∧ (elementIndexesWithFonts fontDoc ⟨[]⟩ ["a"]).2
        = ["a"].foldl (fun s f => s ∪ fontIndexes fontDoc f) ∅
    ∧ CacheCoherent fontDoc (elementIndexesWithFonts fontDoc ⟨[]⟩ ["a"]).1 := by
  have hc : CacheCoherent fontDoc (⟨[]⟩ : FontCache) := ⟨List.nodup_nil, by simp⟩
  have h := C3_font_cache fontDoc ⟨[]⟩ ["a"] hc
  exact ⟨hc, h.2.2.2.2, h.1⟩

/-- The indexes assigned along one page are consecutive. -/
theorem assignIdx_map_index (pn : ℕ) (bs : List BoundingBox) :
    ∀ i : ℕ, (assignIdx pn i bs).map PDFElement.index = List.range' i bs.length := by
  induction bs with
  | nil => intro i; simp [assignIdx]
  | cons b bs ih => intro i; simp [assignIdx, List.range', ih]

/-- One page contributes one element per ordered fragment. -/
theorem assignIdx_length (pn : ℕ) (bs : List BoundingBox) :
    ∀ i : ℕ, (assignIdx pn i bs).length = bs.length := by
  induction bs with
  | nil => intro i; simp [assignIdx]
  | cons b bs ih => intro i; simp [assignIdx, ih]

/-- Every element assigned on a page carries that page's number. -/
theorem assignIdx_pageNumber (pn : ℕ) (bs : List BoundingBox) :
    ∀ (i : ℕ), ∀ e ∈ assignIdx pn i bs, e.pageNumber = pn := by
  induction bs with
  | nil => intro i e he; simp [assignIdx] at he
  | cons b bs ih =>
    intro i e he
    rcases List.mem_cons.mp he with h1 | h1
    · subst h1; rfl
    · exact ih (i + 1) e h1

/-- Every element assigned on a page has its box among the page's ordered
fragments. -/
theorem assignIdx_box_mem (pn : ℕ) (bs : List BoundingBox) :
    ∀ (i : ℕ), ∀ e ∈ assignIdx pn i bs, e.box ∈ bs := by
  induction bs with
  | nil => intro i e he; simp [assignIdx] at he
  | cons b bs ih =>
    intro i e he
    rcases List.mem_cons.mp he with h1 | h1
    · subst h1; exact List.mem_cons_self _ _
    · exact List.mem_cons_of_mem _ (ih (i + 1) e h1)

/-- Elements assigned along a page sorted by the default key are pairwise
in reading order. -/
theorem assignIdx_pairwise (pn : ℕ) (bs : List BoundingBox)
    (h : bs.Pairwise defaultOrderLe) :
    ∀ i : ℕ, (assignIdx pn i bs).Pairwise readingOrderRel := by
  induction bs with
  | nil => intro i; simp [assignIdx]
  | cons b bs ih =>
    intro i
    rcases List.pairwise_cons.mp h with ⟨hb, hbs⟩
    refine List.Pairwise.cons ?_ (ih hbs (i + 1))
    intro e' he'
    have hpage := assignIdx_pageNumber pn bs (i + 1) e' he'
    have hbox := assignIdx_box_mem pn bs (i + 1) e' he'
    exact Or.inr ⟨hpage.symm, hb _ hbox⟩

/-- Specification of the page loop on pages listed with strictly increasing
page numbers: the produced elements carry the consecutive indexes starting
at the running counter, are pairwise in reading order (page ascending,
default key within a page), and their page numbers come from the input. -/
theorem buildPagesSorted_spec (l : List (ℕ × PageInput)) :
    ∀ (idx : ℕ) (els : List PDFElement) (pgs : List PDFPageInfo),
      l.Pairwise (fun p q => p.1 < q.1) →
      buildPagesSorted idx l = .ok (els, pgs) →
      els.map PDFElement.index = List.range' idx els.length
      ∧ els.Pairwise readingOrderRel
      ∧ ∀ e ∈ els, ∃ p ∈ l, e.pageNumber = p.1 := by
  induction l with
  | nil =>
    intro idx els pgs _ hok
    simp only [buildPagesSorted, Except.ok.injEq, Prod.mk.injEq] at hok
    obtain ⟨h1, -⟩ := hok
    subst h1
    simp
  | cons hd rest ih =>
    obtain ⟨pn, pg⟩ := hd
    intro idx els pgs hpair hok
    rcases List.pairwise_cons.mp hpair with ⟨hlt, hrestpair⟩
    by_cases hemp : (List.insertionSort defaultOrderLe pg.elements).isEmpty
    · simp [buildPagesSorted, hemp] at hok
    · cases hrest : buildPagesSorted
          (idx + (List.insertionSort defaultOrderLe pg.elements).length) rest with
      | error err =>
        rw [buildPagesSorted] at hok
        simp only [hemp, if_false, Bool.false_eq_true, hrest] at hok
        simp [bind, Except.bind] at hok
      | ok pr =>
        obtain ⟨restEls, restPgs⟩ := pr
        rw [buildPagesSorted] at hok
        simp only [hemp, if_false, Bool.false_eq_true, hrest, bind, Except.bind,
          Except.ok.injEq, Prod.mk.injEq] at hok
        obtain ⟨h1, -⟩ := hok
        subst h1
        obtain ⟨ih1, ih2, ih3⟩ := ih _ restEls restPgs hrestpair hrest
        refine ⟨?_, ?_, ?_⟩
        · rw [List.map_append,
            assignIdx_map_index pn (List.insertionSort defaultOrderLe pg.elements) idx,
            ih1, List.length_append,
            assignIdx_length pn (List.insertionSort defaultOrderLe pg.elements) idx]
          have hap := List.range'_append idx
            (List.insertionSort defaultOrderLe pg.elements).length restEls.length 1
          rw [one_mul] at hap
          rw [Nat.add_comm restEls.length
            (List.insertionSort defaultOrderLe pg.elements).length] at hap
          exact hap
        · rw [List.pairwise_append]
          refine ⟨assignIdx_pairwise pn _
              (List.sorted_insertionSort defaultOrderLe pg.elements) idx, ih2, ?_⟩
          intro a ha b hb
          obtain ⟨p, hp, hbp⟩ := ih3 b hb
          have hap := assignIdx_pageNumber pn _ idx a ha
          exact Or.inl (by rw [hap, hbp]; exact hlt p hp)
        · intro e he
          rcases List.mem_append.mp he with h1 | h1
          · exact ⟨(pn, pg), List.mem_cons_self _ _,
              assignIdx_pageNumber pn _ idx e h1⟩
          · obtain ⟨p, hp, hep⟩ := ih3 e h1
            exact ⟨p, List.mem_cons_of_mem _ hp, hep⟩

/-- C6: for every successfully constructed document (distinct page numbers,
as in the page dictionary), the element indexes are exactly 0..N-1 in
order, and the element sequence is pairwise in reading order: page numbers
ascending (pages visited in page-number order), and within a page the
default top-to-bottom, left-to-right ordering key non-decreasing — so
indexes strictly increase in configured reading order per page. -/
theorem C6_document_indexing (pages : List (ℕ × PageInput)) (doc : DocState)
    (hnd : (pages.map Prod.fst).Nodup) (hok : buildDocument pages = .ok doc) :
    doc.elements.map PDFElement.index = List.range doc.elements.length
    ∧ doc.elements.Pairwise readingOrderRel := by
  unfold buildDocument at hok
  cases hb : buildPagesSorted 0 (List.insertionSort pageNumberLe pages) with
  | error err => rw [hb] at hok; simp at hok
  | ok pr =>
    obtain ⟨els, pgs⟩ := pr
    rw [hb] at hok
    simp only [Except.ok.injEq] at hok
    subst hok
    have hsorted : (List.insertionSort pageNumberLe pages).Pairwise pageNumberLe :=
      List.sorted_insertionSort pageNumberLe pages
    have hperm := List.perm_insertionSort pageNumberLe pages
    have hnd' : ((List.insertionSort pageNumberLe pages).map Prod.fst).Nodup :=
      ((hperm.map Prod.fst).symm).nodup hnd
    have hne : (List.insertionSort pageNumberLe pages).Pairwise
        (fun p q => p.1 ≠ q.1) := List.pairwise_map.mp hnd'
    have hlt : (List.insertionSort pageNumberLe pages).Pairwise
        (fun p q => p.1 < q.1) :=
      (hsorted.and hne).imp (fun h => lt_of_le_of_ne h.1 h.2)
    obtain ⟨h1, h2, -⟩ := buildPagesSorted_spec _ 0 els pgs hlt hb
    refine ⟨?_, h2⟩
    rw [List.range_eq_range']
    exact h1

/-- Witness for C6: the two-page input with distinct page numbers given out
of order builds the three-element document, whose indexes are 0..2 with
pages visited in ascending page-number order. -/
theorem C6_document_indexing_witness :
    (twoPageInput.map Prod.fst).Nodup
    ∧ buildDocument twoPageInput = .ok twoPageDoc
    ∧ (twoPageDoc.elements.map PDFElement.index
        = List.range twoPageDoc.elements.length
      ∧ twoPageDoc.elements.Pairwise readingOrderRel) :=
  ⟨by decide, by decide,
    C6_document_indexing twoPageInput twoPageDoc (by decide) (by decide)⟩
